import Mathlib

/-!
# Verification of the ToucanTTS acoustic model and meta-training loop

Shallow embedding of the core logic of the IMS-Toucan repository:
* `InferenceToucanTTS._forward` / `_scale_variance` (inference architecture),
* `ToucanTTS.__init__` / `_forward` (training architecture),
* `toucantts_meta_train_loop.train_loop` (meta-training loop).

Real numbers of the source are modelled as rationals (`ℚ`); tensors as
lists of rationals; the per-task data loaders as lists of batches.
-/

namespace Toucan

/-! ## Variance scaling (`InferenceToucanTTS._scale_variance`)

```python
def _scale_variance(sequence, scale):
    if scale == 1.0:
        return sequence
    average = sequence[0][sequence[0] != 0.0].mean()
    sequence = sequence - average  # center sequence around 0
    sequence = sequence * scale  # scale the variance
    sequence = sequence + average  # move center back to original with changed variance
    for sequence_index in range(len(sequence[0])):
        if sequence[0][sequence_index] < 0.0:
            sequence[0][sequence_index] = 0.0
    return sequence
```
The single batch row `sequence[0]` is modelled as a `List ℚ`.  The mean of
an empty selection is NaN in the source (float semantics); in `ℚ` the same
expression evaluates to `0` because `0 / 0 = 0`, so theorems about curves
restrict to curves with at least one non-zero entry. -/

/-- Mean of the entries of the curve that are non-zero
(`sequence[0][sequence[0] != 0.0].mean()`). -/
def nonzeroMean (seq : List ℚ) : ℚ :=
  ((seq.filter (fun x => x ≠ 0)).sum) / ((seq.filter (fun x => x ≠ 0)).length : ℚ)

/-- `_scale_variance` from `InferenceToucanTTS.py`: early return at scale `1.0`,
otherwise center on the non-zero mean, scale, shift back, and clip negative
entries to `0`. -/
def scale_variance (seq : List ℚ) (scale : ℚ) : List ℚ :=
  if scale = 1 then seq
  else
    let average := nonzeroMean seq
    let shifted := seq.map (fun x => (x - average) * scale + average)
    shifted.map (fun x => if x < 0 then 0 else x)

/-! ## Step-target adjustment and loop length (`train_loop`, lines 54–57, 105)

```python
if steps % steps_per_checkpoint == 0:
    steps = steps + 1
else:
    steps = steps + ((steps_per_checkpoint + 1) - (steps % steps_per_checkpoint))
...
for step_counter in tqdm(range(steps_run_previously, steps)):
```
-/

/-- The adjusted step target computed at the top of `train_loop`. -/
def adjustedStepTarget (steps steps_per_checkpoint : ℕ) : ℕ :=
  if steps % steps_per_checkpoint == 0 then
    steps + 1
  else
    steps + ((steps_per_checkpoint + 1) - (steps % steps_per_checkpoint))

/-- The step counters the training loop iterates over on a fresh start
(`range(0, steps)` after the adjustment, since `steps_run_previously = 0`). -/
def stepCountersFresh (steps steps_per_checkpoint : ℕ) : List ℕ :=
  List.range (adjustedStepTarget steps steps_per_checkpoint)

/-- Number of steps executed by a fresh (no-resume) run. -/
def stepsExecutedFresh (steps steps_per_checkpoint : ℕ) : ℕ :=
  (stepCountersFresh steps steps_per_checkpoint).length

/-! ## Per-step loss summation (`train_loop`, lines 129, 150–159)

```python
train_loss = 0.0
if not torch.isnan(regression_loss):
    train_loss = train_loss + regression_loss
... (same for glow, duration, pitch, energy)
```
Component losses are float tensors; a value is modelled as NaN, +Inf, -Inf
or a finite rational, with IEEE-754 addition on those cases. -/

/-- A scalar loss value as produced by the network: finite, infinite, or NaN. -/
inductive LossVal where
  | nan : LossVal
  | posInf : LossVal
  | negInf : LossVal
  | fin : ℚ → LossVal
deriving DecidableEq, Repr

/-- `torch.isnan`: true exactly on NaN (false on ±Inf and finite values). -/
def LossVal.isnan : LossVal → Bool
  | .nan => true
  | _ => false

/-- IEEE-754 addition on loss values. -/
def LossVal.add : LossVal → LossVal → LossVal
  | .nan, _ => .nan
  | _, .nan => .nan
  | .posInf, .negInf => .nan
  | .negInf, .posInf => .nan
  | .posInf, _ => .posInf
  | _, .posInf => .posInf
  | .negInf, _ => .negInf
  | _, .negInf => .negInf
  | .fin a, .fin b => .fin (a + b)

/-- The summed training loss of one step: start from `0.0` and add every
component whose `torch.isnan` test is false, in source order. -/
def stepTrainLoss (components : List LossVal) : LossVal :=
  components.foldl (fun acc l => if l.isnan then acc else acc.add l) (.fin 0)

/-! ## Linguistic overrides on the variance curves

`InferenceToucanTTS._forward`, lines 236–255:
```python
pitch_predictions = self.pitch_predictor(...) if gold_pitch is None else gold_pitch
energy_predictions = self.energy_predictor(...) if gold_energy is None else gold_energy
predicted_durations = self.duration_predictor.inference(...) if gold_durations is None else gold_durations

for phoneme_index, phoneme_vector in enumerate(text_tensors.squeeze(0)):
    if phoneme_vector[...["voiced"]] == 0:
        pitch_predictions[0][phoneme_index] = 0.0
    if phoneme_vector[...["phoneme"]] == 0:
        energy_predictions[0][phoneme_index] = 0.0
    if phoneme_vector[...["word-boundary"]] == 1:
        predicted_durations[0][phoneme_index] = 0
    if phoneme_vector[...["silence"]] == 1 and pause_duration_scaling_factor != 1.0:
        predicted_durations[0][phoneme_index] = torch.round(predicted_durations[0][phoneme_index].float() * pause_duration_scaling_factor).long()
if duration_scaling_factor != 1.0:
    assert duration_scaling_factor > 0
    predicted_durations = torch.round(predicted_durations.float() * duration_scaling_factor).long()
pitch_predictions = _scale_variance(pitch_predictions, pitch_variance_scale)
energy_predictions = _scale_variance(energy_predictions, energy_variance_scale)
```
and the override in the training architecture's inference branch
(`ToucanTTS._forward`, lines 343–346):
```python
for phoneme_index, phoneme_vector in enumerate(text_tensors.squeeze(0)):
    if phoneme_vector[...["word-boundary"]] == 1:
        predicted_durations[0][phoneme_index] = 0
```
A phoneme vector is reduced to the four articulatory-feature entries the
overrides read (`get_feature_to_index_lookup` is index bookkeeping outside
the modelled core); the curves are the batch row `...[0]` of each tensor. -/

/-- The four feature entries of one phoneme's articulatory feature vector that
the override loops inspect. -/
structure PhonemeVectorFlags where
  voiced : ℚ
  phoneme : ℚ
  word_boundary : ℚ
  silence : ℚ
deriving DecidableEq, Repr

/-- `torch.round` followed by `.long()`: round half to even. -/
def torchRound (q : ℚ) : ℤ :=
  let f := ⌊q⌋
  let r := q - (f : ℚ)
  if r < 1/2 then f
  else if 1/2 < r then f + 1
  else if f % 2 = 0 then f else f + 1

/-- One iteration of the override loop of `InferenceToucanTTS._forward` at
phoneme index `it.1` with feature entries `it.2`: the four in-place writes in
source order. -/
def lingStep (pause_duration_scaling_factor : ℚ)
    (st : List ℚ × List ℚ × List ℤ) (it : ℕ × PhonemeVectorFlags) :
    List ℚ × List ℚ × List ℤ :=
  let i := it.1
  let t := it.2
  let p := if t.voiced = 0 then st.1.set i 0 else st.1
  let e := if t.phoneme = 0 then st.2.1.set i 0 else st.2.1
  let d := if t.word_boundary = 1 then st.2.2.set i 0 else st.2.2
  let d := if t.silence = 1 ∧ pause_duration_scaling_factor ≠ 1 then
             d.set i (torchRound ((d.getD i 0 : ℚ) * pause_duration_scaling_factor))
           else d
  (p, e, d)

/-- The override loop of `InferenceToucanTTS._forward` (lines 242–250) over the
enumerated phoneme vectors. -/
def lingOverrides (tokens : List PhonemeVectorFlags)
    (pause_duration_scaling_factor : ℚ)
    (pitch energy : List ℚ) (durations : List ℤ) :
    List ℚ × List ℚ × List ℤ :=
  tokens.enum.foldl (lingStep pause_duration_scaling_factor) (pitch, energy, durations)

/-- The override loop of the training architecture's inference branch
(`ToucanTTS._forward`, lines 344–346): only the word-boundary rule. -/
def wordBoundaryOverride (tokens : List PhonemeVectorFlags) (durations : List ℤ) :
    List ℤ :=
  tokens.enum.foldl
    (fun d it => if it.2.word_boundary = 1 then d.set it.1 0 else d)
    durations

/-- Lines 237–250 of `InferenceToucanTTS._forward`: caller-supplied gold curves
replace the predictor outputs (`x if gold is None else gold`), then the
linguistic override loop runs on the result. -/
def overridesAfterSubstitution (tokens : List PhonemeVectorFlags)
    (pause_duration_scaling_factor : ℚ)
    (predicted_pitch predicted_energy : List ℚ) (predicted_durations : List ℤ)
    (gold_pitch gold_energy : Option (List ℚ)) (gold_durations : Option (List ℤ)) :
    List ℚ × List ℚ × List ℤ :=
  lingOverrides tokens pause_duration_scaling_factor
    (gold_pitch.getD predicted_pitch)
    (gold_energy.getD predicted_energy)
    (gold_durations.getD predicted_durations)

/-- Lines 251–253 of `InferenceToucanTTS._forward`: global duration scaling
with its assertion (`none` models the `AssertionError`). -/
def scaleDurationsGlobal (durations : List ℤ) (duration_scaling_factor : ℚ) :
    Option (List ℤ) :=
  if duration_scaling_factor = 1 then some durations
  else if 0 < duration_scaling_factor then
    some (durations.map (fun d => torchRound ((d : ℚ) * duration_scaling_factor)))
  else none

/-- The full variance stage of `InferenceToucanTTS._forward` (lines 236–255):
gold substitution, linguistic overrides, global duration scaling, variance
scaling of pitch and energy. -/
def varianceStage (tokens : List PhonemeVectorFlags)
    (predicted_pitch predicted_energy : List ℚ) (predicted_durations : List ℤ)
    (gold_pitch gold_energy : Option (List ℚ)) (gold_durations : Option (List ℤ))
    (duration_scaling_factor pitch_variance_scale energy_variance_scale
     pause_duration_scaling_factor : ℚ) :
    Option (List ℚ × List ℚ × List ℤ) :=
  let st := overridesAfterSubstitution tokens pause_duration_scaling_factor
              predicted_pitch predicted_energy predicted_durations
              gold_pitch gold_energy gold_durations
  match scaleDurationsGlobal st.2.2 duration_scaling_factor with
  | none => none
  | some d =>
      some (scale_variance st.1 pitch_variance_scale,
            scale_variance st.2.1 energy_variance_scale, d)

/-! ## Checkpointing and stochastic weight averaging (`train_loop`, lines 173–233)

```python
if step_counter % steps_per_checkpoint == 0 and step_counter != 0:
    ...
    torch.save({...}, os.path.join(save_directory, "checkpoint_{}.pt".format(step_counter)))
    delete_old_checkpoints(save_directory, keep=5)
    ...
    if step_counter > steps * 4 / 5:
        checkpoint_paths = get_n_recent_checkpoints_paths(checkpoint_dir=save_directory, n=2)
        averaged_model, default_embed = average_checkpoints(checkpoint_paths, load_func=load_net_toucan)
        save_model_for_use(model=averaged_model, default_embed=default_embed, name=os.path.join(save_directory, "best.pt"))
        check_dict = torch.load(os.path.join(save_directory, "best.pt"), map_location=device)
        net.load_state_dict(check_dict["model"])
```
The model's parameter set is a `List ℚ`; the checkpoint directory is the list
of saved `(step, parameters)` pairs, most recent first. -/

/-- Live model parameters together with the checkpoint directory. -/
structure CheckpointState where
  net : List ℚ
  checkpoints : List (ℕ × List ℚ)
deriving DecidableEq, Repr

/-- Modelled from the spec: `get_n_recent_checkpoints_paths(n=2)` together with
`average_checkpoints` (module `run_weight_averaging`, not among the provided
sources) — "average the parameters of the 2 most recent checkpoints": the
pointwise mean of the two most recent saved parameter vectors (the single one
when only one checkpoint exists yet). -/
def averageTwoRecent : List (ℕ × List ℚ) → Option (List ℚ)
  | c1 :: c2 :: _ => some (List.zipWith (fun a b => (a + b) / 2) c1.2 c2.2)
  | [c1] => some c1.2
  | [] => none

/-- Modelled from the spec: `delete_old_checkpoints(save_directory, keep=5)`
(module `Utility.utils`, not among the provided sources) — retain only the 5
most recent checkpoints. -/
def deleteOldCheckpoints (cks : List (ℕ × List ℚ)) : List (ℕ × List ℚ) :=
  cks.take 5

/-- The checkpoint block at the end of a training step (`train_loop`,
lines 173–233): at a checkpoint boundary, save the live parameters as a new
checkpoint and prune old ones; when additionally `step_counter > steps * 4 / 5`
(`steps` is the adjusted step target), average the 2 most recent checkpoints
into `best.pt` and load it back into the live model. -/
def checkpointPhase (steps_per_checkpoint steps step_counter : ℕ)
    (st : CheckpointState) : CheckpointState :=
  if step_counter % steps_per_checkpoint == 0 ∧ step_counter ≠ 0 then
    let saved := deleteOldCheckpoints ((step_counter, st.net) :: st.checkpoints)
    if (step_counter : ℚ) > (steps : ℚ) * 4 / 5 then
      { net := (averageTwoRecent saved).getD st.net, checkpoints := saved }
    else
      { net := st.net, checkpoints := saved }
  else st

/-! ## Restoring from a checkpoint (`train_loop`, lines 88–99)

```python
if path_to_checkpoint is not None:
    check_dict = torch.load(path_to_checkpoint, map_location=device)
    net.load_state_dict(check_dict["model"])
    if not fine_tune:
        optimizer.load_state_dict(check_dict["optimizer"])
        scheduler.load_state_dict(check_dict["scheduler"])
        steps_run_previously = check_dict["step_counter"]
```
with `steps_run_previously = 0` freshly initialized at line 81. -/

/-- The fields of a saved checkpoint file that the restore logic reads
(`model`, `optimizer`, `scheduler`, `step_counter`; `default_emb` and `config`
are saved but never restored into the loop's state). -/
structure TrainingCheckpoint (P O S : Type) where
  model : P
  optimizer : O
  scheduler : S
  step_counter : ℕ

/-- The mutable loop variables touched by the restore logic. -/
structure LoopVars (P O S : Type) where
  net : P
  optimizer : O
  scheduler : S
  steps_run_previously : ℕ
deriving Repr

/-- Freshly initialized loop variables (lines 79–81): new optimizer, new
scheduler, `steps_run_previously = 0`. -/
def freshLoopVars {P O S : Type} (net0 : P) (opt0 : O) (sched0 : S) :
    LoopVars P O S :=
  { net := net0, optimizer := opt0, scheduler := sched0, steps_run_previously := 0 }

/-- Lines 90–96 of `train_loop`: load the model weights from the checkpoint
unconditionally; load optimizer state, scheduler state and step counter only
when `fine_tune` is false. -/
def restoreFromCheckpoint {P O S : Type} (fine_tune : Bool)
    (ck : TrainingCheckpoint P O S) (vars : LoopVars P O S) : LoopVars P O S :=
  let st := { vars with net := ck.model }
  if ¬fine_tune then
    { st with optimizer := ck.optimizer, scheduler := ck.scheduler,
              steps_run_previously := ck.step_counter }
  else st

/-! ## The architecture config dictionary (`ToucanTTS.__init__`, lines 101–153)

The Python `dict` literal assigns the key `"codebook_dim"` twice:
```python
self.config = {
    "input_feature_dimensions": input_feature_dimensions,
    ...
    "num_codebooks"           : num_codebooks,
    "codebook_dim"            : codebook_dim,
    "codebook_dim"            : codebook_size,
}
```
A Python dict literal is built by sequential insertion, a repeated key
overwriting the earlier value (`pyDict`/`pyDictInsert` below).  The
checkpoint writer stores this dict under the `"config"` key
(`train_loop`, line 190). -/

/-- A value stored in the config dictionary. -/
inductive ConfigVal where
  | num : ℚ → ConfigVal
  | flag : Bool → ConfigVal
  | str : String → ConfigVal
  | pyNone : ConfigVal
deriving DecidableEq, Repr

/-- The string keys occurring in (or probed on) the config dict, as an
enumerated type so that dictionary computation is tractable for the kernel;
each constructor stands for the Python string key of the same name (the key
`codebook_size` never occurs in the dict literal but can be probed). -/
inductive ConfigKey where
  | input_feature_dimensions | attention_dimension | attention_heads
  | positionwise_conv_kernel_size | use_scaled_positional_encoding | init_type
  | use_macaron_style_in_conformer | use_cnn_in_conformer | encoder_layers
  | encoder_units | encoder_normalize_before | encoder_concat_after
  | conformer_encoder_kernel_size | transformer_enc_dropout_rate
  | transformer_enc_positional_dropout_rate | transformer_enc_attn_dropout_rate
  | decoder_layers | decoder_units | decoder_concat_after
  | conformer_decoder_kernel_size | decoder_normalize_before
  | transformer_dec_dropout_rate | transformer_dec_positional_dropout_rate
  | transformer_dec_attn_dropout_rate | duration_predictor_layers
  | duration_predictor_kernel_size | duration_predictor_dropout_rate
  | pitch_predictor_layers | pitch_predictor_kernel_size
  | pitch_predictor_dropout | pitch_embed_kernel_size | pitch_embed_dropout
  | energy_predictor_layers | energy_predictor_kernel_size
  | energy_predictor_dropout | energy_embed_kernel_size | energy_embed_dropout
  | utt_embed_dim | lang_embs
  | use_conditional_layernorm_embedding_integration | num_codebooks
  | codebook_dim | codebook_size
deriving DecidableEq, Repr, BEq

/-- Lookup in a Python dict literal given as its entry list: a dict literal is
built by sequential insertion, a repeated key overwriting the earlier value,
so the value found is the **last** entry with the probed key (and `none` when
the key never occurs). -/
def pyDictLookup (entries : List (ConfigKey × ConfigVal)) (k : ConfigKey) :
    Option ConfigVal :=
  ((entries.filter (fun e => e.1 == k)).map Prod.snd).getLast?

/-- The constructor arguments of `ToucanTTS.__init__` with their source
defaults. -/
structure ToucanTTSInitArgs where
  input_feature_dimensions : ℕ := 62
  attention_dimension : ℕ := 256
  attention_heads : ℕ := 4
  positionwise_conv_kernel_size : ℕ := 1
  use_scaled_positional_encoding : Bool := true
  init_type : String := ("xavier_uniform")
  use_macaron_style_in_conformer : Bool := true
  use_cnn_in_conformer : Bool := false
  encoder_layers : ℕ := 6
  encoder_units : ℕ := 1280
  encoder_normalize_before : Bool := true
  encoder_concat_after : Bool := false
  conformer_encoder_kernel_size : ℕ := 7
  transformer_enc_dropout_rate : ℚ := 1/10
  transformer_enc_positional_dropout_rate : ℚ := 1/10
  transformer_enc_attn_dropout_rate : ℚ := 1/10
  decoder_layers : ℕ := 8
  decoder_units : ℕ := 1280
  decoder_concat_after : Bool := false
  conformer_decoder_kernel_size : ℕ := 1
  decoder_normalize_before : Bool := false
  transformer_dec_dropout_rate : ℚ := 1/10
  transformer_dec_positional_dropout_rate : ℚ := 1/10
  transformer_dec_attn_dropout_rate : ℚ := 1/10
  duration_predictor_layers : ℕ := 5
  duration_predictor_kernel_size : ℕ := 5
  duration_predictor_dropout_rate : ℚ := 1/5
  pitch_predictor_layers : ℕ := 5
  pitch_predictor_kernel_size : ℕ := 5
  pitch_predictor_dropout : ℚ := 3/10
  pitch_embed_kernel_size : ℕ := 1
  pitch_embed_dropout : ℚ := 0
  energy_predictor_layers : ℕ := 2
  energy_predictor_kernel_size : ℕ := 3
  energy_predictor_dropout : ℚ := 1/2
  energy_embed_kernel_size : ℕ := 1
  energy_embed_dropout : ℚ := 0
  utt_embed_dim : Option ℕ := some 512
  lang_embs : Option ℕ := some 8000
  use_conditional_layernorm_embedding_integration : Bool := false
  num_codebooks : ℕ := 9
  codebook_dim : ℕ := 8
  codebook_size : ℕ := 1024

/-- An optional integer argument as a config value (`None` or a number). -/
def optNum : Option ℕ → ConfigVal
  | none => .pyNone
  | some n => .num n

/-- `self.config` as assigned in `ToucanTTS.__init__`, lines 101–145: the dict
literal in source order, including the repeated `"codebook_dim"` key whose
second occurrence holds `codebook_size`. -/
def mkToucanTTSConfig (a : ToucanTTSInitArgs) : List (ConfigKey × ConfigVal) :=
  [
    (.input_feature_dimensions, .num a.input_feature_dimensions),
    (.attention_dimension, .num a.attention_dimension),
    (.attention_heads, .num a.attention_heads),
    (.positionwise_conv_kernel_size, .num a.positionwise_conv_kernel_size),
    (.use_scaled_positional_encoding, .flag a.use_scaled_positional_encoding),
    (.init_type, .str a.init_type),
    (.use_macaron_style_in_conformer, .flag a.use_macaron_style_in_conformer),
    (.use_cnn_in_conformer, .flag a.use_cnn_in_conformer),
    (.encoder_layers, .num a.encoder_layers),
    (.encoder_units, .num a.encoder_units),
    (.encoder_normalize_before, .flag a.encoder_normalize_before),
    (.encoder_concat_after, .flag a.encoder_concat_after),
    (.conformer_encoder_kernel_size, .num a.conformer_encoder_kernel_size),
    (.transformer_enc_dropout_rate, .num a.transformer_enc_dropout_rate),
    (.transformer_enc_positional_dropout_rate, .num a.transformer_enc_positional_dropout_rate),
    (.transformer_enc_attn_dropout_rate, .num a.transformer_enc_attn_dropout_rate),
    (.decoder_layers, .num a.decoder_layers),
    (.decoder_units, .num a.decoder_units),
    (.decoder_concat_after, .flag a.decoder_concat_after),
    (.conformer_decoder_kernel_size, .num a.conformer_decoder_kernel_size),
    (.decoder_normalize_before, .flag a.decoder_normalize_before),
    (.transformer_dec_dropout_rate, .num a.transformer_dec_dropout_rate),
    (.transformer_dec_positional_dropout_rate, .num a.transformer_dec_positional_dropout_rate),
    (.transformer_dec_attn_dropout_rate, .num a.transformer_dec_attn_dropout_rate),
    (.duration_predictor_layers, .num a.duration_predictor_layers),
    (.duration_predictor_kernel_size, .num a.duration_predictor_kernel_size),
    (.duration_predictor_dropout_rate, .num a.duration_predictor_dropout_rate),
    (.pitch_predictor_layers, .num a.pitch_predictor_layers),
    (.pitch_predictor_kernel_size, .num a.pitch_predictor_kernel_size),
    (.pitch_predictor_dropout, .num a.pitch_predictor_dropout),
    (.pitch_embed_kernel_size, .num a.pitch_embed_kernel_size),
    (.pitch_embed_dropout, .num a.pitch_embed_dropout),
    (.energy_predictor_layers, .num a.energy_predictor_layers),
    (.energy_predictor_kernel_size, .num a.energy_predictor_kernel_size),
    (.energy_predictor_dropout, .num a.energy_predictor_dropout),
    (.energy_embed_kernel_size, .num a.energy_embed_kernel_size),
    (.energy_embed_dropout, .num a.energy_embed_dropout),
    (.utt_embed_dim, optNum a.utt_embed_dim),
    (.lang_embs, optNum a.lang_embs),
    (.use_conditional_layernorm_embedding_integration, .flag a.use_conditional_layernorm_embedding_integration),
    (.num_codebooks, .num a.num_codebooks),
    (.codebook_dim, .num a.codebook_dim),
    (.codebook_dim, .num a.codebook_size)]

/-- The model attributes assigned right after the config dict
(`ToucanTTS.__init__`, lines 147–153). -/
structure ToucanTTSAttrs where
  input_feature_dimensions : ℕ
  attention_dimension : ℕ
  num_codebooks : ℕ
  codebook_dim : ℕ
deriving DecidableEq, Repr

/-- `self.input_feature_dimensions = ...`, `self.num_codebooks = num_codebooks`,
`self.codebook_dim = codebook_dim`. -/
def toucanTTSAttrs (a : ToucanTTSInitArgs) : ToucanTTSAttrs :=
  { input_feature_dimensions := a.input_feature_dimensions,
    attention_dimension := a.attention_dimension,
    num_codebooks := a.num_codebooks,
    codebook_dim := a.codebook_dim }

/-! ## Hierarchical codebook prediction

Training architecture, `ToucanTTS.__init__` lines 229–231:
```python
self.hierarchical_classifier = torch.nn.ModuleList()
for head in range(self.num_codebooks):
    self.hierarchical_classifier.append(torch.nn.Linear(attention_dimension + head * self.codebook_dim, self.codebook_dim))
```
`ToucanTTS._forward` lines 374–390:
```python
if not is_inference:
    gold_codec_frames = list()
    gold_codec_frames.append(decoded_speech)
    gold_frames_per_codebook = torch.stack(torch.split(gold_speech, split_size_or_sections=8, dim=-1))
predicted_codec_frames = list()
predicted_codec_frames.append(decoded_speech)
for head_index, classifier_head in enumerate(self.hierarchical_classifier):
    if not is_inference:
        predicted_codec_frames.append(classifier_head(torch.cat(gold_codec_frames, dim=2)))
        gold_codec_frames.append(gold_frames_per_codebook[head_index])
    else:
        predicted_codec_frames.append(classifier_head(torch.cat(predicted_codec_frames, dim=2)))
```
One output frame is modelled: `decoded_speech` is its decoder-output vector,
`torch.cat(..., dim=2)` is list append on the feature axis, and the gold
chunks are the width-8 (`8` = default `codebook_dim`) slices of the gold
codec frame.

Inference architecture, `InferenceToucanTTS._forward` lines 268–277:
```python
for index, (codebook_decoder, codebook_projector, codebook_flow) in enumerate(zip(self.codebook_decoders, self.feat_outs, self.post_flows)):
    decoded_codebook, _ = codebook_decoder(decoded_speech, None, utterance_embedding=utterance_embedding)
    codebook_vectors.append(codebook_projector(decoded_codebook).view(decoded_codebook.size(0), -1, self.codebook_dim))
    ...
```
each per-codebook decoder receives `decoded_speech` itself; the decoders and
projectors are Conformer stacks (abstracted as functions on frame vectors,
they do not affect which input is handed to each head). -/

/-- Dot product of two feature vectors. -/
def dot (xs ys : List ℚ) : ℚ :=
  (List.zipWith (fun a b => a * b) xs ys).sum

/-- A `torch.nn.Linear` layer: one weight row and one bias entry per output
feature. -/
structure LinearHead where
  weight : List (List ℚ)
  bias : List ℚ
deriving Repr

/-- Applying a linear layer to a feature vector. -/
def LinearHead.apply (h : LinearHead) (x : List ℚ) : List ℚ :=
  List.zipWith (fun row b => dot row x + b) h.weight h.bias

/-- The input widths of the hierarchical classifier heads as constructed in
`ToucanTTS.__init__` lines 229–231: head `k` is a `Linear` with in-features
`attention_dimension + k * codebook_dim`. -/
def hierarchicalClassifierInDims (attention_dimension codebook_dim num_codebooks : ℕ) :
    List ℕ :=
  (List.range num_codebooks).map (fun head => attention_dimension + head * codebook_dim)

/-- Teacher-forced head loop of `ToucanTTS._forward` (training branch): `acc`
is `torch.cat(gold_codec_frames, dim=2)` so far; each head is applied to `acc`,
then the head's gold chunk is appended to the gold context.  `none` models the
`IndexError` when there are fewer gold chunks than heads.  Returns the list of
inputs fed to the heads and the list of head outputs. -/
def hierTFAux : List ℚ → List LinearHead → List (List ℚ) →
    Option (List (List ℚ) × List (List ℚ))
  | _, [], _ => some ([], [])
  | _, _ :: _, [] => none
  | acc, h :: hs, c :: cs =>
      match hierTFAux (acc ++ c) hs cs with
      | none => none
      | some (ins, outs) => some (acc :: ins, h.apply acc :: outs)

/-- Teacher-forced hierarchical prediction on one frame: the gold context
starts with the decoder output. -/
def hierTeacherForced (heads : List LinearHead) (decoded_speech : List ℚ)
    (goldChunks : List (List ℚ)) : Option (List (List ℚ) × List (List ℚ)) :=
  hierTFAux decoded_speech heads goldChunks

/-- Autoregressive head loop of `ToucanTTS._forward` (inference branch): `acc`
is `torch.cat(predicted_codec_frames, dim=2)` so far; each head is applied to
`acc` and its own output is appended to the context. -/
def hierARAux : List ℚ → List LinearHead → List (List ℚ) × List (List ℚ)
  | _, [] => ([], [])
  | acc, h :: hs =>
      let out := h.apply acc
      let rest := hierARAux (acc ++ out) hs
      (acc :: rest.1, out :: rest.2)

/-- Autoregressive hierarchical prediction on one frame: the predicted context
starts with the decoder output. -/
def hierAutoregressive (heads : List LinearHead) (decoded_speech : List ℚ) :
    List (List ℚ) × List (List ℚ) :=
  hierARAux decoded_speech heads

/-- The per-codebook loop of `InferenceToucanTTS._forward` (lines 268–277):
every codebook decoder is applied to `decoded_speech` itself.  Returns the
inputs handed to the codebook decoders and the decoded codebook vectors. -/
def inferenceArchCodebookLoop : List (List ℚ → List ℚ) → List ℚ →
    List (List ℚ) × List (List ℚ)
  | [], _ => ([], [])
  | d :: ds, decoded_speech =>
      let rest := inferenceArchCodebookLoop ds decoded_speech
      (decoded_speech :: rest.1, d decoded_speech :: rest.2)

/-! ## Per-step batch collection (`train_loop`, lines 106–118)

```python
batches = []
while len(batches) < batch_size:
    for index in random.sample(list(range(len(datasets))), len(datasets)):
        if len(batches) < batch_size:
            # we get one batch for each task (i.e. language in this case) in a randomized order
            try:
                batch = next(train_iters[index])
                batches.append(batch)
            except StopIteration:
                train_iters[index] = iter(train_loaders[index])
                batch = next(train_iters[index])
                batches.append(batch)
batch = collate_and_pad(batches)
```
A task's data loader is the list of batches it yields in one epoch (the
loader's shuffling is abstracted into that order); an iterator is the suffix
not yet consumed.  `random.sample(range(n), n)` is a permutation of the task
indices, supplied as the stream `perms` of the per-pass permutations.  Each
collected batch is recorded together with the index of the task it was drawn
from. -/

/-- `next(train_iters[index])` with the `StopIteration` handler: take the next
remaining element, restarting from the full dataset when the iterator is
exhausted; `none` models the uncaught `StopIteration` of an empty dataset. -/
def drawFromTask {B : Type} (dataset remaining : List B) : Option (B × List B) :=
  match remaining with
  | b :: rest => some (b, rest)
  | [] =>
      match dataset with
      | b :: rest => some (b, rest)
      | [] => none

/-- The draw a single task contributes, as a function of the current iterator
states. -/
def taskDraw {B : Type} (datasets iters : List (List B)) (i : ℕ) :
    Option (B × List B) :=
  drawFromTask (datasets.getD i []) (iters.getD i [])

/-- One pass of the inner `for index in random.sample(...)` loop: visit the
task indices in the order of `perm`, drawing one batch from each visited task
while fewer than `batch_size` batches have been collected. -/
def passDraw {B : Type} (batch_size : ℕ) (datasets : List (List B)) :
    List ℕ → List (List B) → List (ℕ × B) →
    Option (List (List B) × List (ℕ × B))
  | [], iters, batches => some (iters, batches)
  | i :: rest, iters, batches =>
      if batches.length < batch_size then
        match taskDraw datasets iters i with
        | none => none
        | some (b, it) =>
            passDraw batch_size datasets rest (iters.set i it) (batches ++ [(i, b)])
      else
        passDraw batch_size datasets rest iters batches

/-- The outer `while len(batches) < batch_size` loop; `perms j` is the
permutation produced by `random.sample` in the `j`-th pass.  `fuel` bounds the
number of passes (`none` on exhaustion models non-termination, which the
source would exhibit with zero tasks and a positive batch size). -/
def collectBatches {B : Type} (fuel batch_size : ℕ) (datasets : List (List B))
    (perms : ℕ → List ℕ) (passIdx : ℕ) (iters : List (List B))
    (batches : List (ℕ × B)) : Option (List (List B) × List (ℕ × B)) :=
  match fuel with
  | 0 => none
  | fuel + 1 =>
      if batches.length < batch_size then
        match passDraw batch_size datasets (perms passIdx) iters batches with
        | none => none
        | some (iters2, batches2) =>
            collectBatches fuel batch_size datasets perms (passIdx + 1) iters2 batches2
      else
        some (iters, batches)

/-- The iterator states after one full pass in which every task of `perm` drew
once from its pre-pass state. -/
def itersAfterPass {B : Type} (datasets iters : List (List B)) (perm : List ℕ) :
    List (List B) :=
  perm.foldl
    (fun its i => its.set i (((taskDraw datasets iters i).map Prod.snd).getD []))
    iters

/-- The batches one full pass collects: one per task of `perm`, in `perm`'s
order, each drawn from that task's pre-pass state. -/
def batchesOfPass {B : Type} (datasets iters : List (List B)) (perm : List ℕ) :
    List (ℕ × B) :=
  perm.filterMap (fun i => (taskDraw datasets iters i).map (fun p => (i, p.1)))

/-- The smallest multiple of `spc` that is at least `steps` (the step count the
spec claims for a fresh run). -/
def leastCheckpointMultiple (steps spc : ℕ) : ℕ :=
  spc * ((steps + spc - 1) / spc)

theorem ceilDivToucan_eq_of_mod_eq_zero (steps spc : ℕ) (hspc : 0 < spc)
    (h : steps % spc = 0) : (steps + spc - 1) / spc = steps / spc := by
  apply Nat.le_antisymm
  · rw [Nat.div_le_iff_le_mul_add_pred hspc]
    have hdm := Nat.div_add_mod steps spc
    omega
  · exact Nat.div_le_div_right (by omega)

theorem ceilDivToucan_eq_of_mod_ne_zero (steps spc : ℕ) (hspc : 0 < spc)
    (h : steps % spc ≠ 0) : (steps + spc - 1) / spc = steps / spc + 1 := by
  have hdm := Nat.div_add_mod steps spc
  have hr : steps % spc < spc := Nat.mod_lt _ hspc
  have h1 : steps + spc - 1 = (steps % spc - 1) + spc * (steps / spc + 1) := by
    have h3 : spc * (steps / spc + 1) = spc * (steps / spc) + spc := by ring
    omega
  rw [h1, Nat.add_mul_div_left _ _ hspc, Nat.div_eq_of_lt (by omega)]
  omega

theorem leastCheckpointMultiple_isLeast (steps spc : ℕ) (hspc : 0 < spc) :
    IsLeast {m | spc ∣ m ∧ steps ≤ m} (leastCheckpointMultiple steps spc) := by
  have hdm := Nat.div_add_mod steps spc
  have hr : steps % spc < spc := Nat.mod_lt _ hspc
  constructor
  · refine ⟨⟨_, rfl⟩, ?_⟩
    rw [leastCheckpointMultiple]
    by_cases h : steps % spc = 0
    · rw [ceilDivToucan_eq_of_mod_eq_zero steps spc hspc h]
      omega
    · rw [ceilDivToucan_eq_of_mod_ne_zero steps spc hspc h]
      have h3 : spc * (steps / spc + 1) = spc * (steps / spc) + spc := by ring
      omega
  · rintro m ⟨⟨t, rfl⟩, hle⟩
    rw [leastCheckpointMultiple]
    refine Nat.mul_le_mul_left spc ?_
    rw [Nat.div_le_iff_le_mul_add_pred hspc]
    omega

/-- C6 (amended): a fresh run of `train_loop` executes the smallest multiple of
`steps_per_checkpoint` that is at least the requested `steps`, **plus one**
additional step: the loop iterates `step_counter` from `0` through that
multiple inclusive, so the run ends right after the checkpoint boundary. -/
theorem c6_fresh_run_steps_rounded_up_plus_one (steps spc : ℕ) (hspc : 0 < spc) :
    stepsExecutedFresh steps spc = leastCheckpointMultiple steps spc + 1 ∧
    IsLeast {m | spc ∣ m ∧ steps ≤ m} (leastCheckpointMultiple steps spc) := by
  refine ⟨?_, leastCheckpointMultiple_isLeast steps spc hspc⟩
  have hdm := Nat.div_add_mod steps spc
  have hr : steps % spc < spc := Nat.mod_lt _ hspc
  rw [stepsExecutedFresh, stepCountersFresh, List.length_range, adjustedStepTarget,
      leastCheckpointMultiple]
  by_cases h : steps % spc = 0
  · rw [if_pos (by simpa using h), ceilDivToucan_eq_of_mod_eq_zero steps spc hspc h]
    omega
  · rw [if_neg (by simpa using h), ceilDivToucan_eq_of_mod_ne_zero steps spc hspc h]
    have h3 : spc * (steps / spc + 1) = spc * (steps / spc) + spc := by ring
    omega

/-- Witness for `c6_fresh_run_steps_rounded_up_plus_one` at `steps = 95`,
`steps_per_checkpoint = 10`: the run executes `100 + 1` steps. -/
theorem c6_fresh_run_steps_witness :
    stepsExecutedFresh 95 10 = leastCheckpointMultiple 95 10 + 1 ∧
    IsLeast {m | 10 ∣ m ∧ 95 ≤ m} (leastCheckpointMultiple 95 10) :=
  c6_fresh_run_steps_rounded_up_plus_one 95 10 (by norm_num)

/-- C6 counterexample: with `steps = 10` and `steps_per_checkpoint = 10`, the
loop executes 11 steps, while the smallest multiple of 10 that is `≥ 10` is 10
itself — the claimed step count is off by one. -/
theorem c6_counterexample :
    stepsExecutedFresh 10 10 = 11 ∧
    IsLeast {m | 10 ∣ m ∧ 10 ≤ m} 10 ∧
    stepsExecutedFresh 10 10 ≠ 10 := by
  refine ⟨by decide, ⟨⟨by norm_num, by norm_num⟩, ?_⟩, by decide⟩
  rintro m ⟨-, hle⟩
  exact hle

/-- Sum of the finite components of a loss list. -/
def finiteSum (components : List LossVal) : ℚ :=
  (components.filterMap (fun l => match l with | .fin q => some q | _ => none)).sum

theorem stepTrainLoss_eq_foldl_filter (components : List LossVal) :
    stepTrainLoss components =
      (components.filter (fun l => !l.isnan)).foldl LossVal.add (.fin 0) := by
  rw [stepTrainLoss]
  generalize LossVal.fin 0 = init
  induction components generalizing init with
  | nil => rfl
  | cons l t ih =>
      cases hl : l.isnan <;> simp [List.filter_cons, hl, ih]

theorem foldl_add_fin_of_all_fin (comps : List LossVal) (s : ℚ)
    (h : ∀ l ∈ comps, l = .nan ∨ ∃ q, l = .fin q) :
    comps.foldl (fun (acc : LossVal) l => if l.isnan then acc else acc.add l) (.fin s) =
      .fin (s + finiteSum comps) := by
  induction comps generalizing s with
  | nil => simp [finiteSum]
  | cons l t ih =>
      rcases h l (by simp) with hl | ⟨q, hl⟩
      · subst hl
        rw [List.foldl_cons]
        show List.foldl _ (LossVal.fin s) t = _
        rw [ih s (fun x hx => h x (by simp [hx]))]
        simp [finiteSum]
      · subst hl
        rw [List.foldl_cons]
        show List.foldl _ (LossVal.fin (s + q)) t = _
        rw [ih (s + q) (fun x hx => h x (by simp [hx]))]
        have hfs : finiteSum (LossVal.fin q :: t) = q + finiteSum t := by
          simp [finiteSum]
        rw [hfs]
        ring_nf
theorem foldl_add_posInf_acc (comps : List LossVal)
    (h : ∀ l ∈ comps, l ≠ .nan ∧ l ≠ .negInf) :
    comps.foldl (fun (acc : LossVal) l => if l.isnan then acc else acc.add l) .posInf =
      .posInf := by
  induction comps with
  | nil => rfl
  | cons l t ih =>
      have hl := h l (by simp)
      have hrest : ∀ x ∈ t, x ≠ LossVal.nan ∧ x ≠ LossVal.negInf :=
        fun x hx => h x (by simp [hx])
      rw [List.foldl_cons]
      cases l with
      | nan => exact absurd rfl hl.1
      | negInf => exact absurd rfl hl.2
      | posInf =>
          show List.foldl _ LossVal.posInf t = _
          exact ih hrest
      | fin q =>
          show List.foldl _ LossVal.posInf t = _
          exact ih hrest

theorem foldl_add_posInf_mem (comps : List LossVal) (s : ℚ)
    (h : ∀ l ∈ comps, l ≠ .nan ∧ l ≠ .negInf) (hmem : .posInf ∈ comps) :
    comps.foldl (fun (acc : LossVal) l => if l.isnan then acc else acc.add l) (.fin s) =
      .posInf := by
  induction comps generalizing s with
  | nil => simp at hmem
  | cons l t ih =>
      have hrest : ∀ x ∈ t, x ≠ LossVal.nan ∧ x ≠ LossVal.negInf :=
        fun x hx => h x (by simp [hx])
      rw [List.foldl_cons]
      rcases List.mem_cons.mp hmem with hl | hl
      · subst hl
        show List.foldl _ LossVal.posInf t = _
        exact foldl_add_posInf_acc t hrest
      · have hhead := h l (by simp)
        cases l with
        | nan => exact absurd rfl hhead.1
        | negInf => exact absurd rfl hhead.2
        | posInf =>
            show List.foldl _ LossVal.posInf t = _
            exact foldl_add_posInf_acc t hrest
        | fin q =>
            show List.foldl _ (LossVal.fin (s + q)) t = _
            exact ih (s + q) hrest hl

/-- C3 (amended): in a training step exactly the NaN component losses are
excluded from the summed loss; finite components are all summed; an infinite
(`+Inf`) component is **not** excluded — it propagates into the summed loss,
because the code only tests `torch.isnan`, which is false on infinities. -/
theorem c3_nan_excluded_inf_propagates (components : List LossVal) :
    stepTrainLoss components =
        (components.filter (fun l => !l.isnan)).foldl LossVal.add (.fin 0) ∧
    ((∀ l ∈ components, l = .nan ∨ ∃ q, l = .fin q) →
        stepTrainLoss components = .fin (finiteSum components)) ∧
    ((∀ l ∈ components, l ≠ .nan ∧ l ≠ .negInf) → .posInf ∈ components →
        stepTrainLoss components = .posInf) := by
  refine ⟨stepTrainLoss_eq_foldl_filter components, ?_, ?_⟩
  · intro h
    rw [stepTrainLoss, foldl_add_fin_of_all_fin components 0 h, zero_add]
  · intro h hmem
    rw [stepTrainLoss]
    exact foldl_add_posInf_mem components 0 h hmem

/-- Witness for `c3_nan_excluded_inf_propagates` on the component lists
`[1, NaN, 2, 3, 4]` (the NaN is dropped, the rest are summed) and
`[1, +Inf, 2, 3, 4]` (the +Inf propagates). -/
theorem c3_nan_excluded_inf_propagates_witness :
    stepTrainLoss [.fin 1, .nan, .fin 2, .fin 3, .fin 4] = .fin 10 ∧
    stepTrainLoss [.fin 1, .posInf, .fin 2, .fin 3, .fin 4] = .posInf := by
  constructor
  · have h := (c3_nan_excluded_inf_propagates
      [.fin 1, .nan, .fin 2, .fin 3, .fin 4]).2.1 ?_
    · rw [h]
      have : finiteSum [LossVal.fin 1, .nan, .fin 2, .fin 3, .fin 4] = 10 := by
        simp [finiteSum]
        norm_num
      rw [this]
    · intro l hl
      fin_cases hl <;> simp
  · exact (c3_nan_excluded_inf_propagates
      [.fin 1, .posInf, .fin 2, .fin 3, .fin 4]).2.2
      (by intro l hl; fin_cases hl <;> simp) (by simp)

/-- C3 counterexample: with the glow loss `+Inf` and the other four component
losses finite, the summed training loss is `+Inf` — the non-finite component
is *included*, contradicting the claim, under which the step's summed loss
would have been the finite `1 + 2 + 3 + 4 = 10`. -/
theorem c3_counterexample :
    stepTrainLoss [.fin 1, .posInf, .fin 2, .fin 3, .fin 4] = .posInf ∧
    stepTrainLoss [.fin 1, .fin 2, .fin 3, .fin 4] = .fin 10 ∧
    LossVal.posInf ≠ .fin 10 := by
  refine ⟨rfl, ?_, by simp⟩
  show LossVal.fin (0 + 1 + 2 + 3 + 4) = LossVal.fin 10
  norm_num


/-- C9: the stored architecture config maps `"codebook_dim"` to the
`codebook_size` argument (the duplicate dict key overwrites the earlier
entry), has no `"codebook_size"` key, and does not depend on the
`codebook_dim` argument at all, while the model's `codebook_dim` attribute is
the real `codebook_dim`; with the source defaults the stored
`config["codebook_dim"]` is `1024` while the attribute is `8`. -/
theorem c9_config_codebook_dim_overwritten :
    (∀ a : ToucanTTSInitArgs,
      pyDictLookup (mkToucanTTSConfig a) .codebook_dim = some (.num a.codebook_size) ∧
      pyDictLookup (mkToucanTTSConfig a) .codebook_size = none ∧
      (toucanTTSAttrs a).codebook_dim = a.codebook_dim) ∧
    (∀ (a : ToucanTTSInitArgs) (n : ℕ) (k : ConfigKey),
      pyDictLookup (mkToucanTTSConfig { a with codebook_dim := n }) k =
        pyDictLookup (mkToucanTTSConfig a) k) ∧
    pyDictLookup (mkToucanTTSConfig {}) .codebook_dim = some (.num 1024) ∧
    (toucanTTSAttrs {}).codebook_dim = 8 := by
  refine ⟨fun a => ⟨?_, ?_, rfl⟩, fun a n k => ?_, ?_, rfl⟩
  · rfl
  · rfl
  · cases k <;> rfl
  · rfl

/-- C8: starting `train_loop` from a checkpoint restores model parameters,
optimizer state, scheduler state and the step counter when `fine_tune` is
off; with `fine_tune` on only the model weights are restored while the
optimizer, the scheduler and the step counter keep their freshly initialized
state (step counter `0`). -/
theorem c8_restore_fine_tune {P O S : Type}
    (ck : TrainingCheckpoint P O S) (net0 : P) (opt0 : O) (sched0 : S) :
    restoreFromCheckpoint false ck (freshLoopVars net0 opt0 sched0) =
      { net := ck.model, optimizer := ck.optimizer, scheduler := ck.scheduler,
        steps_run_previously := ck.step_counter } ∧
    restoreFromCheckpoint true ck (freshLoopVars net0 opt0 sched0) =
      { net := ck.model, optimizer := opt0, scheduler := sched0,
        steps_run_previously := 0 } :=
  ⟨rfl, rfl⟩

theorem clip_eq_max (x : ℚ) : (if x < 0 then (0 : ℚ) else x) = max 0 x := by
  rcases lt_or_le x 0 with h | h
  · rw [if_pos h, max_eq_left h.le]
  · rw [if_neg (not_lt.mpr h), max_eq_right h]

theorem sum_map_affine (l : List ℚ) (a b : ℚ) :
    (l.map (fun x => a * x + b)).sum = a * l.sum + l.length * b := by
  induction l with
  | nil => simp
  | cons x t ih =>
      simp only [List.map_cons, List.sum_cons, ih, List.length_cons]
      push_cast
      ring

/-- C5 (amended): `_scale_variance` is the exact identity at scale `1.0`
(without any clipping); for any other scale every result entry is
`max 0 ((x − μ)·s + μ)` with `μ` the mean of the originally non-zero entries —
so all result entries are non-negative and the affine step *before* clipping
preserves `μ` exactly while multiplying each deviation from `μ` by `s` (the
mean of the clipped result can drift whenever clipping fires, and at scale
`1.0` negative entries pass through unclipped). -/
theorem c5_scale_variance_amended (seq : List ℚ) (s : ℚ) :
    scale_variance seq 1 = seq ∧
    (s ≠ 1 → scale_variance seq s =
        seq.map (fun x => max 0 ((x - nonzeroMean seq) * s + nonzeroMean seq))) ∧
    (s ≠ 1 → ∀ y ∈ scale_variance seq s, 0 ≤ y) ∧
    (seq.filter (fun x => x ≠ 0) ≠ [] →
      ((seq.filter (fun x => x ≠ 0)).map
          (fun x => (x - nonzeroMean seq) * s + nonzeroMean seq)).sum /
        ((seq.filter (fun x => x ≠ 0)).length : ℚ) = nonzeroMean seq) := by
  have hmap : ∀ hs : s ≠ 1, scale_variance seq s =
      seq.map (fun x => max 0 ((x - nonzeroMean seq) * s + nonzeroMean seq)) := by
    intro hs
    rw [scale_variance, if_neg hs, List.map_map]
    refine List.map_congr_left (fun x _ => ?_)
    exact clip_eq_max _
  refine ⟨by rw [scale_variance, if_pos rfl], hmap, ?_, ?_⟩
  · intro hs y hy
    rw [hmap hs] at hy
    obtain ⟨x, -, rfl⟩ := List.mem_map.mp hy
    exact le_max_left 0 _
  · intro hne
    set l := seq.filter (fun x => x ≠ 0) with hl
    set μ := nonzeroMean seq with hμ
    have hk : (l.length : ℚ) ≠ 0 :=
      Nat.cast_ne_zero.mpr (List.length_pos.mpr hne).ne'
    have hkμ : (l.length : ℚ) * μ = l.sum := by
      rw [hμ, nonzeroMean, ← hl, mul_div_cancel₀]
      exact hk
    have haff : (fun x : ℚ => (x - μ) * s + μ) = fun x => s * x + (μ - s * μ) := by
      funext x
      ring
    rw [haff, sum_map_affine, div_eq_iff hk]
    linear_combination (-s) * hkμ

/-- Witness for `c5_scale_variance_amended` at `seq = [2, 4, 0]`, `s = 2`
(non-zero mean `3`; the affine step yields `[1, 5, -3]`, clipped to
`[1, 5, 0]`). -/
theorem c5_scale_variance_witness :
    scale_variance [(2 : ℚ), 4, 0] 1 = [2, 4, 0] ∧
    scale_variance [(2 : ℚ), 4, 0] 2 =
      [(2 : ℚ), 4, 0].map
        (fun x => max 0 ((x - nonzeroMean [(2 : ℚ), 4, 0]) * 2 +
          nonzeroMean [(2 : ℚ), 4, 0])) ∧
    (∀ y ∈ scale_variance [(2 : ℚ), 4, 0] 2, 0 ≤ y) ∧
    (([(2 : ℚ), 4, 0].filter (fun x => x ≠ 0)).map
        (fun x => (x - nonzeroMean [(2 : ℚ), 4, 0]) * 2 +
          nonzeroMean [(2 : ℚ), 4, 0])).sum /
      (([(2 : ℚ), 4, 0].filter (fun x => x ≠ 0)).length : ℚ) =
      nonzeroMean [(2 : ℚ), 4, 0] := by
  obtain ⟨h1, h2, h3, h4⟩ := c5_scale_variance_amended [(2 : ℚ), 4, 0] 2
  exact ⟨(c5_scale_variance_amended [(2 : ℚ), 4, 0] 1).1,
         h2 (by norm_num), h3 (by norm_num), h4 (by norm_num [List.filter, List.cons_ne_nil])⟩

/-- C5 counterexample: at scale `1.0` the early return skips clipping, so the
curve `[-1]` keeps its negative entry, contradicting "all result entries are
clipped to be non-negative"; and for the curve `[2, -2, 0]` at scale `2` the
clipped result is `[4, 0, 0]`, whose mean over the originally non-zero
positions is `2 ≠ 0`, contradicting the claimed preservation of the original
non-zero mean by the transform's result. -/
theorem c5_counterexample :
    (scale_variance [(-1 : ℚ)] 1 = [-1] ∧ (-1 : ℚ) < 0) ∧
    (nonzeroMean [(2 : ℚ), -2, 0] = 0 ∧
     scale_variance [(2 : ℚ), -2, 0] 2 = [4, 0, 0] ∧
     ((4 : ℚ) + 0) / 2 ≠ 0) := by
  refine ⟨⟨by rw [scale_variance, if_pos rfl], by norm_num⟩, ?_, ?_, by norm_num⟩
  · rw [nonzeroMean]
    norm_num
  · rw [scale_variance, if_neg (by norm_num), nonzeroMean]
    norm_num

/-- C7: at a checkpoint boundary (`step_counter` a non-zero multiple of
`steps_per_checkpoint`) lying in the final fifth of the (adjusted) step target
— the source condition `step_counter > steps * 4 / 5`, equivalent over the
integers to `4 * steps < 5 * step_counter` — the loop averages the parameters
of the 2 most recent checkpoints (the one just saved, holding the live
parameters, and the most recent earlier one) and reloads the average into the
live model; at a boundary outside the final fifth the live parameters are
untouched (only the checkpoint is saved); away from boundaries nothing
happens. -/
theorem c7_swa_in_final_fifth (spc steps sc : ℕ) (st : CheckpointState) :
    ((sc : ℚ) > (steps : ℚ) * 4 / 5 ↔ 4 * steps < 5 * sc) ∧
    (sc % spc = 0 → sc ≠ 0 → 4 * steps < 5 * sc →
      ∀ prev rest, st.checkpoints = prev :: rest →
        checkpointPhase spc steps sc st =
          { net := List.zipWith (fun a b => (a + b) / 2) st.net prev.2,
            checkpoints := deleteOldCheckpoints ((sc, st.net) :: st.checkpoints) }) ∧
    (sc % spc = 0 → sc ≠ 0 → ¬(4 * steps < 5 * sc) →
      checkpointPhase spc steps sc st =
        { net := st.net,
          checkpoints := deleteOldCheckpoints ((sc, st.net) :: st.checkpoints) }) ∧
    (¬(sc % spc = 0 ∧ sc ≠ 0) → checkpointPhase spc steps sc st = st) := by
  have hiff : (sc : ℚ) > (steps : ℚ) * 4 / 5 ↔ 4 * steps < 5 * sc := by
    rw [gt_iff_lt, div_lt_iff (by norm_num : (0 : ℚ) < 5)]
    constructor
    · intro h
      have h2 : steps * 4 < sc * 5 := by exact_mod_cast h
      omega
    · intro h
      have h2 : steps * 4 < sc * 5 := by omega
      exact_mod_cast h2
  refine ⟨hiff, ?_, ?_, ?_⟩
  · intro hb hnz h5 prev rest hck
    rw [checkpointPhase, if_pos ⟨by simp [hb], hnz⟩, if_pos (hiff.mpr h5), hck]
    simp [deleteOldCheckpoints, averageTwoRecent]
  · intro hb hnz h5
    rw [checkpointPhase, if_pos ⟨by simp [hb], hnz⟩, if_neg (fun hc => h5 (hiff.mp hc))]
  · intro hnb
    rw [checkpointPhase, if_neg (by simpa using hnb)]

/-- Witness for `c7_swa_in_final_fifth`: with `steps_per_checkpoint = 10`,
adjusted step target `100`, live parameters `[1, 3]` and one earlier
checkpoint `(80, [3, 5])`, the boundary at step `90` (final fifth) reloads the
averaged parameters `[2, 4]`, the boundary at step `50` does not touch the
live parameters, and step `55` (no boundary) changes nothing. -/
theorem c7_swa_in_final_fifth_witness :
    checkpointPhase 10 100 90 { net := [1, 3], checkpoints := [(80, [3, 5])] } =
      { net := [2, 4], checkpoints := [(90, [1, 3]), (80, [3, 5])] } ∧
    checkpointPhase 10 100 50 { net := [1, 3], checkpoints := [(80, [3, 5])] } =
      { net := [1, 3], checkpoints := [(50, [1, 3]), (80, [3, 5])] } ∧
    checkpointPhase 10 100 55 { net := [1, 3], checkpoints := [(80, [3, 5])] } =
      { net := [1, 3], checkpoints := [(80, [3, 5])] } := by
  refine ⟨?_, ?_, ?_⟩
  · have h := (c7_swa_in_final_fifth 10 100 90
      { net := [1, 3], checkpoints := [(80, [3, 5])] }).2.1
      (by norm_num) (by norm_num) (by norm_num) (80, [3, 5]) [] rfl
    rw [h]
    norm_num [deleteOldCheckpoints]
  · have h := (c7_swa_in_final_fifth 10 100 50
      { net := [1, 3], checkpoints := [(80, [3, 5])] }).2.2.1
      (by norm_num) (by norm_num) (by norm_num)
    rw [h]
    norm_num [deleteOldCheckpoints]
  · exact (c7_swa_in_final_fifth 10 100 55
      { net := [1, 3], checkpoints := [(80, [3, 5])] }).2.2.2 (by norm_num)

theorem torchRound_zero : torchRound 0 = 0 := by
  norm_num [torchRound]

theorem lingStep_length_pitch (pf : ℚ) (st : List ℚ × List ℚ × List ℤ)
    (it : ℕ × PhonemeVectorFlags) : (lingStep pf st it).1.length = st.1.length := by
  rw [lingStep]
  split_ifs <;> simp

theorem lingStep_length_energy (pf : ℚ) (st : List ℚ × List ℚ × List ℤ)
    (it : ℕ × PhonemeVectorFlags) :
    (lingStep pf st it).2.1.length = st.2.1.length := by
  rw [lingStep]
  split_ifs <;> simp

theorem lingStep_length_durs (pf : ℚ) (st : List ℚ × List ℚ × List ℤ)
    (it : ℕ × PhonemeVectorFlags) :
    (lingStep pf st it).2.2.length = st.2.2.length := by
  rw [lingStep]
  split_ifs <;> simp

theorem lingStep_get_ne (pf : ℚ) (st : List ℚ × List ℚ × List ℤ)
    (it : ℕ × PhonemeVectorFlags) (j : ℕ) (hj : it.1 ≠ j) :
    (lingStep pf st it).1.get? j = st.1.get? j ∧
    (lingStep pf st it).2.1.get? j = st.2.1.get? j ∧
    (lingStep pf st it).2.2.get? j = st.2.2.get? j := by
  rw [lingStep]
  refine ⟨?_, ?_, ?_⟩ <;> split_ifs <;>
    simp [List.getElem?_set_ne hj]

theorem foldl_lingStep_stable (pf : ℚ) (ts : List PhonemeVectorFlags) :
    ∀ (n : ℕ) (st : List ℚ × List ℚ × List ℤ) (j : ℕ), j < n →
    ((ts.enumFrom n).foldl (lingStep pf) st).1.get? j = st.1.get? j ∧
    ((ts.enumFrom n).foldl (lingStep pf) st).2.1.get? j = st.2.1.get? j ∧
    ((ts.enumFrom n).foldl (lingStep pf) st).2.2.get? j = st.2.2.get? j := by
  induction ts with
  | nil => intro n st j _; exact ⟨rfl, rfl, rfl⟩
  | cons t ts ih =>
      intro n st j hj
      have hstep := lingStep_get_ne pf st (n, t) j (by omega)
      have hrest := ih (n + 1) (lingStep pf st (n, t)) j (by omega)
      rw [List.enumFrom_cons, List.foldl_cons]
      exact ⟨hrest.1.trans hstep.1, hrest.2.1.trans hstep.2.1,
             hrest.2.2.trans hstep.2.2⟩

theorem foldl_lingStep_pitch_zero (pf : ℚ) (ts : List PhonemeVectorFlags) :
    ∀ (n : ℕ) (st : List ℚ × List ℚ × List ℤ) (k : ℕ) (t : PhonemeVectorFlags),
    ts.get? k = some t → t.voiced = 0 → n + k < st.1.length →
    ((ts.enumFrom n).foldl (lingStep pf) st).1.get? (n + k) = some 0 := by
  induction ts with
  | nil => intro n st k t hk; simp at hk
  | cons t0 ts ih =>
      intro n st k t hk hv hlen
      rw [List.enumFrom_cons, List.foldl_cons]
      cases k with
      | zero =>
          simp only [List.get?_cons_zero, Option.some.injEq] at hk
          subst hk
          have hp : (lingStep pf st (n, t0)).1 = st.1.set n 0 := by
            rw [lingStep]
            split_ifs <;> first | rfl | exact absurd hv (by assumption)
          have hn : n < st.1.length := by omega
          have hfin := (foldl_lingStep_stable pf ts (n + 1)
            (lingStep pf st (n, t0)) n (by omega)).1
          simp only [Nat.add_zero]
          rw [hfin, hp]
          simp [List.getElem?_set_self, hn]
      | succ k' =>
          have hk' : ts.get? k' = some t := hk
          have hlen' : (n + 1) + k' < (lingStep pf st (n, t0)).1.length := by
            rw [lingStep_length_pitch]
            omega
          have := ih (n + 1) (lingStep pf st (n, t0)) k' t hk' hv hlen'
          rw [show n + (k' + 1) = (n + 1) + k' by omega]
          exact this

theorem foldl_lingStep_energy_zero (pf : ℚ) (ts : List PhonemeVectorFlags) :
    ∀ (n : ℕ) (st : List ℚ × List ℚ × List ℤ) (k : ℕ) (t : PhonemeVectorFlags),
    ts.get? k = some t → t.phoneme = 0 → n + k < st.2.1.length →
    ((ts.enumFrom n).foldl (lingStep pf) st).2.1.get? (n + k) = some 0 := by
  induction ts with
  | nil => intro n st k t hk; simp at hk
  | cons t0 ts ih =>
      intro n st k t hk hv hlen
      rw [List.enumFrom_cons, List.foldl_cons]
      cases k with
      | zero =>
          simp only [List.get?_cons_zero, Option.some.injEq] at hk
          subst hk
          have hp : (lingStep pf st (n, t0)).2.1 = st.2.1.set n 0 := by
            rw [lingStep]
            split_ifs <;> first | rfl | exact absurd hv (by assumption)
          have hn : n < st.2.1.length := by omega
          have hfin := (foldl_lingStep_stable pf ts (n + 1)
            (lingStep pf st (n, t0)) n (by omega)).2.1
          simp only [Nat.add_zero]
          rw [hfin, hp]
          simp [List.getElem?_set_self, hn]
      | succ k' =>
          have hlen' : (n + 1) + k' < (lingStep pf st (n, t0)).2.1.length := by
            rw [lingStep_length_energy]
            omega
          have := ih (n + 1) (lingStep pf st (n, t0)) k' t hk hv hlen'
          rw [show n + (k' + 1) = (n + 1) + k' by omega]
          exact this

theorem foldl_lingStep_durs_zero (pf : ℚ) (ts : List PhonemeVectorFlags) :
    ∀ (n : ℕ) (st : List ℚ × List ℚ × List ℤ) (k : ℕ) (t : PhonemeVectorFlags),
    ts.get? k = some t → t.word_boundary = 1 → n + k < st.2.2.length →
    ((ts.enumFrom n).foldl (lingStep pf) st).2.2.get? (n + k) = some 0 := by
  induction ts with
  | nil => intro n st k t hk; simp at hk
  | cons t0 ts ih =>
      intro n st k t hk hv hlen
      rw [List.enumFrom_cons, List.foldl_cons]
      cases k with
      | zero =>
          simp only [List.get?_cons_zero, Option.some.injEq] at hk
          subst hk
          have hn : n < st.2.2.length := by omega
          have hd : (lingStep pf st (n, t0)).2.2.get? n = some 0 := by
            rw [lingStep]
            simp only [if_pos hv]
            split_ifs with h1 h2
            · have hget : ((st.2.2.set n 0).getD n 0 : ℤ) = 0 := by
                rw [List.getD_eq_getElem?_getD]
                simp [List.getElem?_set_self, hn]
              rw [hget]
              push_cast
              rw [zero_mul, torchRound_zero]
              simp [List.getElem?_set_self, hn]
            · simp [List.getElem?_set_self, hn]
          have hfin := (foldl_lingStep_stable pf ts (n + 1)
            (lingStep pf st (n, t0)) n (by omega)).2.2
          simp only [Nat.add_zero]
          rw [hfin, hd]
      | succ k' =>
          have hlen' : (n + 1) + k' < (lingStep pf st (n, t0)).2.2.length := by
            rw [lingStep_length_durs]
            omega
          have := ih (n + 1) (lingStep pf st (n, t0)) k' t hk hv hlen'
          rw [show n + (k' + 1) = (n + 1) + k' by omega]
          exact this

theorem foldl_wbStep_stable (ts : List PhonemeVectorFlags) :
    ∀ (n : ℕ) (d : List ℤ) (j : ℕ), j < n →
    ((ts.enumFrom n).foldl
        (fun d it => if it.2.word_boundary = 1 then d.set it.1 0 else d) d).get? j
      = d.get? j := by
  induction ts with
  | nil => intro n d j _; rfl
  | cons t ts ih =>
      intro n d j hj
      rw [List.enumFrom_cons, List.foldl_cons]
      have hstep : (if t.word_boundary = 1 then d.set n 0 else d).get? j = d.get? j := by
        split_ifs <;> simp [List.getElem?_set_ne (show n ≠ j by omega)]
      exact (ih (n + 1) _ j (by omega)).trans hstep

theorem foldl_wbStep_zero (ts : List PhonemeVectorFlags) :
    ∀ (n : ℕ) (d : List ℤ) (k : ℕ) (t : PhonemeVectorFlags),
    ts.get? k = some t → t.word_boundary = 1 → n + k < d.length →
    ((ts.enumFrom n).foldl
        (fun d it => if it.2.word_boundary = 1 then d.set it.1 0 else d) d).get? (n + k)
      = some 0 := by
  induction ts with
  | nil => intro n d k t hk; simp at hk
  | cons t0 ts ih =>
      intro n d k t hk hwb hlen
      rw [List.enumFrom_cons, List.foldl_cons]
      cases k with
      | zero =>
          simp only [List.get?_cons_zero, Option.some.injEq] at hk
          subst hk
          have hn : n < d.length := by omega
          simp only [Nat.add_zero, if_pos hwb]
          rw [foldl_wbStep_stable ts (n + 1) _ n (by omega)]
          simp [List.getElem?_set_self, hn]
      | succ k' =>
          have hlen' : (n + 1) + k' <
              (if t0.word_boundary = 1 then d.set n 0 else d).length := by
            split_ifs
            · rw [List.length_set]
              omega
            · omega
          have := ih (n + 1) _ k' t hk hwb hlen'
          rw [show n + (k' + 1) = (n + 1) + k' by omega]
          exact this

/-- C4: a token whose word-boundary feature is set to `1` has its predicted
duration forced to exactly `0` by the duration-override logic of the training
architecture (`ToucanTTS._forward`, lines 344–346) and by the override logic
of the inference architecture (`InferenceToucanTTS._forward`, lines 247–250,
where a subsequent silence rescaling of the same token also leaves `0`). -/
theorem c4_word_boundary_duration_zero (tokens : List PhonemeVectorFlags)
    (durations : List ℤ) (pause_duration_scaling_factor : ℚ)
    (pitch energy : List ℚ) (i : ℕ) (t : PhonemeVectorFlags)
    (ht : tokens.get? i = some t) (hwb : t.word_boundary = 1)
    (hlen : i < durations.length) :
    (wordBoundaryOverride tokens durations).get? i = some 0 ∧
    (lingOverrides tokens pause_duration_scaling_factor pitch energy
        durations).2.2.get? i = some 0 := by
  constructor
  · have := foldl_wbStep_zero tokens 0 durations i t ht hwb (by omega)
    rw [Nat.zero_add] at this
    exact this
  · have := foldl_lingStep_durs_zero pause_duration_scaling_factor tokens 0
      (pitch, energy, durations) i t ht hwb (by simpa using hlen)
    rw [Nat.zero_add] at this
    exact this

/-- Witness for `c4_word_boundary_duration_zero`: two tokens, the second a
word boundary with predicted duration `7`; both override loops force its
duration to `0`. -/
theorem c4_word_boundary_duration_zero_witness :
    (wordBoundaryOverride
        [⟨1, 1, 0, 0⟩, ⟨1, 0, 1, 0⟩] [5, 7]).get? 1 = some 0 ∧
    (lingOverrides [⟨1, 1, 0, 0⟩, ⟨1, 0, 1, 0⟩] 1
        [1, 2] [3, 4] [5, 7]).2.2.get? 1 = some 0 :=
  c4_word_boundary_duration_zero [⟨1, 1, 0, 0⟩, ⟨1, 0, 1, 0⟩] [5, 7] 1
    [1, 2] [3, 4] 1 ⟨1, 0, 1, 0⟩ rfl rfl (by norm_num)

/-- C10: in `InferenceToucanTTS._forward` the linguistic overrides run *after*
gold substitution, so even when the caller supplies gold pitch, energy or
durations, pitch is forced to `0.0` wherever the voiced feature is `0`, energy
is forced to `0.0` wherever the phoneme feature is `0`, and duration is forced
to `0` wherever the word-boundary feature is `1` — the supplied values at
those positions are discarded. -/
theorem c10_overrides_discard_gold (tokens : List PhonemeVectorFlags)
    (pause_duration_scaling_factor : ℚ)
    (predicted_pitch predicted_energy : List ℚ) (predicted_durations : List ℤ)
    (gold_pitch gold_energy : Option (List ℚ)) (gold_durations : Option (List ℤ))
    (i : ℕ) (t : PhonemeVectorFlags) (ht : tokens.get? i = some t) :
    (t.voiced = 0 → i < (gold_pitch.getD predicted_pitch).length →
      (overridesAfterSubstitution tokens pause_duration_scaling_factor
        predicted_pitch predicted_energy predicted_durations
        gold_pitch gold_energy gold_durations).1.get? i = some 0) ∧
    (t.phoneme = 0 → i < (gold_energy.getD predicted_energy).length →
      (overridesAfterSubstitution tokens pause_duration_scaling_factor
        predicted_pitch predicted_energy predicted_durations
        gold_pitch gold_energy gold_durations).2.1.get? i = some 0) ∧
    (t.word_boundary = 1 → i < (gold_durations.getD predicted_durations).length →
      (overridesAfterSubstitution tokens pause_duration_scaling_factor
        predicted_pitch predicted_energy predicted_durations
        gold_pitch gold_energy gold_durations).2.2.get? i = some 0) := by
  refine ⟨fun hv hl => ?_, fun hp hl => ?_, fun hw hl => ?_⟩
  · have := foldl_lingStep_pitch_zero pause_duration_scaling_factor tokens 0
      (gold_pitch.getD predicted_pitch, gold_energy.getD predicted_energy,
       gold_durations.getD predicted_durations) i t ht hv (by simpa using hl)
    rw [Nat.zero_add] at this
    exact this
  · have := foldl_lingStep_energy_zero pause_duration_scaling_factor tokens 0
      (gold_pitch.getD predicted_pitch, gold_energy.getD predicted_energy,
       gold_durations.getD predicted_durations) i t ht hp (by simpa using hl)
    rw [Nat.zero_add] at this
    exact this
  · have := foldl_lingStep_durs_zero pause_duration_scaling_factor tokens 0
      (gold_pitch.getD predicted_pitch, gold_energy.getD predicted_energy,
       gold_durations.getD predicted_durations) i t ht hw (by simpa using hl)
    rw [Nat.zero_add] at this
    exact this

/-- Witness for `c10_overrides_discard_gold`: a single unvoiced non-phoneme
word-boundary token with caller-supplied gold pitch `5`, gold energy `7` and
gold duration `9`; all three supplied values are overridden to `0`. -/
theorem c10_overrides_discard_gold_witness :
    (overridesAfterSubstitution [⟨0, 0, 1, 0⟩] 1 [1] [1] [1]
        (some [5]) (some [7]) (some [9])).1.get? 0 = some 0 ∧
    (overridesAfterSubstitution [⟨0, 0, 1, 0⟩] 1 [1] [1] [1]
        (some [5]) (some [7]) (some [9])).2.1.get? 0 = some 0 ∧
    (overridesAfterSubstitution [⟨0, 0, 1, 0⟩] 1 [1] [1] [1]
        (some [5]) (some [7]) (some [9])).2.2.get? 0 = some 0 := by
  obtain ⟨h1, h2, h3⟩ := c10_overrides_discard_gold [⟨0, 0, 1, 0⟩] 1 [1] [1] [1]
    (some [5]) (some [7]) (some [9]) 0 ⟨0, 0, 1, 0⟩ rfl
  exact ⟨h1 rfl (by norm_num), h2 rfl (by norm_num), h3 rfl (by norm_num)⟩

theorem flatten_take_length (chunks : List (List ℚ)) (cd : ℕ)
    (hc : ∀ c ∈ chunks, c.length = cd) :
    ∀ k, k ≤ chunks.length → ((chunks.take k).flatten).length = k * cd := by
  induction chunks with
  | nil =>
      intro k hk
      have : k = 0 := by simpa using hk
      subst this
      simp
  | cons c cs ih =>
      intro k hk
      cases k with
      | zero => simp
      | succ k' =>
          rw [List.take_succ_cons, List.flatten_cons, List.length_append,
              hc c (by simp), ih (fun x hx => hc x (by simp [hx])) k' (by simpa using hk)]
          ring

theorem hierTFAux_spec (cd : ℕ) :
    ∀ (heads : List LinearHead) (chunks : List (List ℚ)) (acc : List ℚ),
    heads.length ≤ chunks.length →
    ∃ ins outs, hierTFAux acc heads chunks = some (ins, outs) ∧
      ins.length = heads.length ∧
      (∀ k, k < heads.length → ins.get? k = some (acc ++ (chunks.take k).flatten)) := by
  intro heads
  induction heads with
  | nil =>
      intro chunks acc _
      exact ⟨[], [], rfl, rfl, fun k hk => absurd hk (by simp)⟩
  | cons h hs ih =>
      intro chunks acc hlen
      cases chunks with
      | nil => simp at hlen
      | cons c cs =>
          obtain ⟨ins, outs, heq, hinslen, hspec⟩ :=
            ih cs (acc ++ c) (by simpa using hlen)
          refine ⟨acc :: ins, h.apply acc :: outs, ?_, by simpa using hinslen, ?_⟩
          · rw [hierTFAux, heq]
          · intro k hk
            cases k with
            | zero => simp
            | succ k' =>
                rw [List.get?_cons_succ, hspec k' (by simpa using hk),
                    List.take_succ_cons, List.flatten_cons, List.append_assoc]

theorem hierARAux_spec (cd : ℕ) :
    ∀ (heads : List LinearHead) (acc : List ℚ),
    (∀ k h, heads.get? k = some h → h.weight.length = cd ∧ h.bias.length = cd) →
    ∀ k, k < heads.length →
      ∃ v, (hierARAux acc heads).1.get? k = some v ∧
        v.length = acc.length + k * cd := by
  intro heads
  induction heads with
  | nil => intro acc _ k hk; simp at hk
  | cons h hs ih =>
      intro acc hwf k hk
      cases k with
      | zero => exact ⟨acc, rfl, by simp⟩
      | succ k' =>
          have hout : (h.apply acc).length = cd := by
            obtain ⟨hw, hb⟩ := hwf 0 h rfl
            rw [LinearHead.apply, List.length_zipWith, hw, hb, min_self]
          have hwf' : ∀ k hh, hs.get? k = some hh →
              hh.weight.length = cd ∧ hh.bias.length = cd :=
            fun k hh hk => hwf (k + 1) hh hk
          obtain ⟨v, hv, hlen⟩ := ih (acc ++ h.apply acc) hwf' k' (by simpa using hk)
          have hcons : (hierARAux acc (h :: hs)).1 =
              acc :: (hierARAux (acc ++ h.apply acc) hs).1 := rfl
          refine ⟨v, ?_, ?_⟩
          · rw [hcons, List.get?_cons_succ]
            exact hv
          · rw [hlen, List.length_append, hout]
            ring

/-- C1 (amended): in the **training architecture** the hierarchical property
holds — head `k` is constructed with input width
`attention_dimension + k * codebook_dim` (strictly increasing in `k`), and in
`ToucanTTS._forward` head `k` is applied to the concatenation, in increasing
head order, of the decoder output with the gold chunks of codebooks `0..k-1`
(teacher forcing) resp. with the predicted codebooks `0..k-1` (autoregressive
inference branch), so the input widths are `attention_dimension +
k * codebook_dim` in both modes.  (In the separate inference architecture the
property fails; see the counterexample.) -/
theorem c1_training_arch_hierarchy (attn cd n : ℕ) (heads : List LinearHead)
    (decoded : List ℚ) (chunks : List (List ℚ)) :
    (∀ k, k < n →
      (hierarchicalClassifierInDims attn cd n).get? k = some (attn + k * cd)) ∧
    (0 < cd → (hierarchicalClassifierInDims attn cd n).Pairwise (· < ·)) ∧
    (heads.length ≤ chunks.length →
      ∃ ins outs, hierTeacherForced heads decoded chunks = some (ins, outs) ∧
        (∀ k, k < heads.length →
          ins.get? k = some (decoded ++ (chunks.take k).flatten)) ∧
        (decoded.length = attn → (∀ c ∈ chunks, c.length = cd) →
          ∀ k, k < heads.length → ∀ v, ins.get? k = some v →
            v.length = attn + k * cd)) ∧
    ((∀ k h, heads.get? k = some h →
        h.weight.length = cd ∧ h.bias.length = cd) →
      decoded.length = attn →
      ∀ k, k < heads.length →
        ∃ v, (hierAutoregressive heads decoded).1.get? k = some v ∧
          v.length = attn + k * cd) := by
  refine ⟨?_, ?_, ?_, ?_⟩
  · intro k hk
    rw [hierarchicalClassifierInDims]
    rw [List.get?_map, List.get?_range hk]
    rfl
  · intro hcd
    rw [hierarchicalClassifierInDims]
    refine List.Pairwise.map _ ?_ (List.pairwise_lt_range n)
    intro a b hab
    exact Nat.add_lt_add_left ((mul_lt_mul_right hcd).mpr hab) attn
  · intro hlen
    obtain ⟨ins, outs, heq, hinslen, hspec⟩ := hierTFAux_spec cd heads chunks decoded hlen
    refine ⟨ins, outs, heq, hspec, ?_⟩
    intro hd hc k hk v hv
    rw [hspec k hk] at hv
    cases hv
    rw [List.length_append, hd,
        flatten_take_length chunks cd hc k (le_trans (Nat.le_of_lt hk) hlen)]
  · intro hwf hd k hk
    obtain ⟨v, hv, hvlen⟩ := hierARAux_spec cd heads decoded hwf k hk
    exact ⟨v, hv, by rw [hvlen, hd]⟩

/-- Witness for `c1_training_arch_hierarchy` with `attention_dimension = 2`,
`codebook_dim = 1`, two heads of the constructed shapes, decoder output
`[1, 2]` and gold chunks `[[5], [7]]`. -/
theorem c1_training_arch_hierarchy_witness :
    (hierarchicalClassifierInDims 2 1 2).get? 1 = some (2 + 1 * 1) ∧
    (hierarchicalClassifierInDims 2 1 2).Pairwise (· < ·) ∧
    (∃ ins outs,
      hierTeacherForced [⟨[[1, 1]], [0]⟩, ⟨[[1, 1, 1]], [0]⟩] [1, 2] [[5], [7]] =
        some (ins, outs) ∧
      (∀ k, k < 2 → ins.get? k = some ([1, 2] ++ ([[5], [7]].take k).flatten)) ∧
      (∀ k, k < 2 → ∀ v, ins.get? k = some v → v.length = 2 + k * 1)) ∧
    (∀ k, k < 2 →
      ∃ v, (hierAutoregressive [⟨[[1, 1]], [0]⟩, ⟨[[1, 1, 1]], [0]⟩] [1, 2]).1.get? k =
        some v ∧ v.length = 2 + k * 1) := by
  obtain ⟨ha, hb, hc, hd⟩ := c1_training_arch_hierarchy 2 1 2
    [⟨[[1, 1]], [0]⟩, ⟨[[1, 1, 1]], [0]⟩] [1, 2] [[5], [7]]
  have hwf : ∀ k h, ([⟨[[1, 1]], [0]⟩, ⟨[[1, 1, 1]], [0]⟩] :
      List LinearHead).get? k = some h → h.weight.length = 1 ∧ h.bias.length = 1 := by
    intro k h hk
    match k with
    | 0 =>
        simp only [List.get?_cons_zero, Option.some.injEq] at hk
        subst hk
        exact ⟨rfl, rfl⟩
    | 1 =>
        simp only [List.get?_cons_succ, List.get?_cons_zero, Option.some.injEq] at hk
        subst hk
        exact ⟨rfl, rfl⟩
    | (k + 2) => simp at hk
  refine ⟨ha 1 (by norm_num), hb (by norm_num), ?_, ?_⟩
  · obtain ⟨ins, outs, h1, h2, h3⟩ := hc (by norm_num)
    exact ⟨ins, outs, h1, fun k hk => h2 k (by simpa using hk),
           fun k hk v hv => h3 rfl (by intro c hcm; fin_cases hcm <;> rfl) k
             (by simpa using hk) v hv⟩
  · intro k hk
    exact hd hwf rfl k (by simpa using hk)

/-- C1 counterexample: in the inference architecture
(`InferenceToucanTTS._forward`), the input handed to codebook decoder `1` is
`decoded_speech` itself — with the default `attention_dimension = 192` its
width is `192`, not `attention_dimension + 1 * codebook_dim = 200`: the heads
of the inference architecture receive no concatenation of previous codebooks
and their input width does not grow with the head index. -/
theorem c1_counterexample :
    ((inferenceArchCodebookLoop (List.replicate 9 (fun x => x))
        (List.replicate 192 (0 : ℚ))).1.get? 1).map List.length = some 192 ∧
    (192 : ℕ) ≠ 192 + 1 * 8 := by
  refine ⟨?_, by norm_num⟩
  have h : ∀ d : List ℚ,
      (inferenceArchCodebookLoop (List.replicate 9 (fun x => x)) d).1.get? 1 =
        some d := fun d => rfl
  rw [h]
  simp only [Option.map_some', List.length_replicate]

theorem taskDraw_set_ne {B : Type} (datasets iters : List (List B)) (i j : ℕ)
    (x : List B) (h : i ≠ j) :
    taskDraw datasets (iters.set i x) j = taskDraw datasets iters j := by
  simp [taskDraw, List.getD_eq_getElem?_getD, List.getElem?_set_ne h]

theorem foldl_set_stable {B : Type} (v : ℕ → List B) :
    ∀ (perm : List ℕ) (its : List (List B)) (i : ℕ), i ∉ perm →
    (perm.foldl (fun its j => its.set j (v j)) its).getD i [] = its.getD i [] := by
  intro perm
  induction perm with
  | nil => intro its i _; rfl
  | cons j rest ih =>
      intro its i hi
      have hji : j ≠ i := by
        rintro rfl
        exact hi (List.mem_cons_self j rest)
      rw [List.foldl_cons, ih _ i (fun hm => hi (List.mem_cons_of_mem j hm))]
      simp [List.getD_eq_getElem?_getD, List.getElem?_set_ne hji]

theorem foldl_set_getD {B : Type} (v : ℕ → List B) :
    ∀ (perm : List ℕ) (its : List (List B)) (i : ℕ), perm.Nodup → i ∈ perm →
    i < its.length →
    (perm.foldl (fun its j => its.set j (v j)) its).getD i [] = v i := by
  intro perm
  induction perm with
  | nil => intro its i _ hi; simp at hi
  | cons j rest ih =>
      intro its i hnd hi hlt
      rw [List.foldl_cons]
      rcases List.mem_cons.mp hi with rfl | hi2
      · rw [foldl_set_stable v rest _ i ((List.nodup_cons.mp hnd).1)]
        rw [List.getD_eq_getElem?_getD, List.getElem?_set_self hlt]
        rfl
      · exact ih _ i (List.nodup_cons.mp hnd).2 hi2 (by simpa using hlt)

theorem batchesOfPass_map_fst {B : Type} (datasets iters : List (List B)) :
    ∀ perm : List ℕ, (∀ i ∈ perm, taskDraw datasets iters i ≠ none) →
    (batchesOfPass datasets iters perm).map Prod.fst = perm := by
  intro perm
  induction perm with
  | nil => intro _; rfl
  | cons j rest ih =>
      intro h
      cases hd : taskDraw datasets iters j with
      | none => exact absurd hd (h j (List.mem_cons_self j rest))
      | some p =>
          rw [batchesOfPass, List.filterMap_cons, hd]
          simp only [Option.map_some']
          rw [List.map_cons]
          rw [show (rest.filterMap
            (fun i => (taskDraw datasets iters i).map (fun p => (i, p.1)))) =
            batchesOfPass datasets iters rest from rfl,
            ih (fun i hi => h i (List.mem_cons_of_mem j hi))]

theorem mem_batchesOfPass {B : Type} (datasets iters : List (List B)) :
    ∀ (perm : List ℕ) (i : ℕ) (b : B) (it : List B), i ∈ perm →
    taskDraw datasets iters i = some (b, it) →
    (i, b) ∈ batchesOfPass datasets iters perm := by
  intro perm
  induction perm with
  | nil => intro i b it hi; simp at hi
  | cons j rest ih =>
      intro i b it hi hd
      rcases List.mem_cons.mp hi with rfl | hi2
      · rw [batchesOfPass, List.filterMap_cons, hd]
        simp
      · rw [batchesOfPass, List.filterMap_cons]
        cases hj : taskDraw datasets iters j with
        | none => exact ih i b it hi2 hd
        | some p => exact List.mem_cons_of_mem _ (ih i b it hi2 hd)

theorem batchesOfPass_cons_some {B : Type} (datasets iters : List (List B))
    (j : ℕ) (perm : List ℕ) (b : B) (it : List B)
    (hd : taskDraw datasets iters j = some (b, it)) :
    batchesOfPass datasets iters (j :: perm) =
      (j, b) :: batchesOfPass datasets iters perm := by
  rw [batchesOfPass, List.filterMap_cons, hd]
  simp only [Option.map_some']
  rfl

theorem passDraw_spec {B : Type} (batch_size : ℕ) (datasets : List (List B)) :
    ∀ (perm : List ℕ) (iters : List (List B)) (batches : List (ℕ × B)),
    perm.Nodup →
    (∀ i ∈ perm, taskDraw datasets iters i ≠ none) →
    batches.length + perm.length ≤ batch_size →
    passDraw batch_size datasets perm iters batches =
      some (itersAfterPass datasets iters perm,
            batches ++ batchesOfPass datasets iters perm) := by
  intro perm
  induction perm with
  | nil =>
      intro iters batches _ _ _
      simp [passDraw, itersAfterPass, batchesOfPass]
  | cons i rest ih =>
      intro iters batches hnd hne hcap
      obtain ⟨hnotmem, hndrest⟩ := List.nodup_cons.mp hnd
      cases hd : taskDraw datasets iters i with
      | none => exact absurd hd (hne i (List.mem_cons_self i rest))
      | some p =>
          obtain ⟨b, it⟩ := p
          have hset : ∀ j ∈ rest, taskDraw datasets (iters.set i it) j =
              taskDraw datasets iters j := by
            intro j hj
            refine taskDraw_set_ne datasets iters i j it ?_
            rintro rfl
            exact hnotmem hj
          rw [passDraw, if_pos (by simp at hcap ⊢; omega), hd]
          show passDraw batch_size datasets rest (iters.set i it)
            (batches ++ [(i, b)]) = _
          have hne' : ∀ j ∈ rest, taskDraw datasets (iters.set i it) j ≠ none := by
            intro j hj
            rw [hset j hj]
            exact hne j (List.mem_cons_of_mem i hj)
          rw [ih (iters.set i it) (batches ++ [(i, b)]) hndrest hne'
            (by simp at hcap ⊢; omega)]
          have hbatches : batchesOfPass datasets (iters.set i it) rest =
              batchesOfPass datasets iters rest := by
            refine List.filterMap_congr (fun j hj => ?_)
            rw [hset j hj]
          have hiters : itersAfterPass datasets (iters.set i it) rest =
              itersAfterPass datasets iters (i :: rest) := by
            rw [itersAfterPass, itersAfterPass, List.foldl_cons, hd]
            show _ = List.foldl _ (iters.set i it) rest
            refine List.foldl_ext _ _ _ ?_
            intro its j hj
            rw [hset j hj]
          rw [hbatches, hiters, batchesOfPass_cons_some datasets iters i rest b it hd]
          simp

theorem taskDraw_isSome_of_lt {B : Type} (datasets iters : List (List B))
    (i : ℕ) (hi : i < datasets.length) (hne : ∀ ds ∈ datasets, ds ≠ []) :
    taskDraw datasets iters i ≠ none := by
  rw [taskDraw]
  cases hit : iters.getD i [] with
  | cons b rest => simp [drawFromTask]
  | nil =>
      have hmem : datasets.getD i [] ∈ datasets := by
        rw [List.getD_eq_getElem?_getD, List.getElem?_eq_getElem hi]
        exact List.getElem_mem hi
      cases hds : datasets.getD i [] with
      | nil =>
          rw [hds] at hmem
          exact absurd rfl (hne [] hmem)
      | cons b rest => simp [drawFromTask]

/-- C2 (amended): one step of the batch-collection loop gathers `batch_size`
batches, visiting the tasks in the fresh random order `perms 0`; **when
`batch_size` equals the number of tasks** this draws exactly one batch from
each task, in the randomized order: a task whose iterator still has elements
contributes its next element and its iterator advances, and a task whose
iterator is exhausted has its iterator reinitialized — for that task only —
and contributes the first element of the restarted iteration.  (When
`batch_size` differs from the number of tasks, the per-task guarantee fails;
see the counterexample.) -/
theorem c2_one_batch_per_task (B : Type) (datasets iters : List (List B))
    (perms : ℕ → List ℕ)
    (hlen : iters.length = datasets.length)
    (hperm : (perms 0).Perm (List.range datasets.length))
    (hne : ∀ ds ∈ datasets, ds ≠ [])
    (hn : 0 < datasets.length) :
    collectBatches 2 datasets.length datasets perms 0 iters [] =
      some (itersAfterPass datasets iters (perms 0),
            batchesOfPass datasets iters (perms 0)) ∧
    (batchesOfPass datasets iters (perms 0)).map Prod.fst = perms 0 ∧
    (∀ i b rest, i < datasets.length → iters.getD i [] = b :: rest →
      (i, b) ∈ batchesOfPass datasets iters (perms 0) ∧
      (itersAfterPass datasets iters (perms 0)).getD i [] = rest) ∧
    (∀ i b rest, i < datasets.length → iters.getD i [] = [] →
      datasets.getD i [] = b :: rest →
      (i, b) ∈ batchesOfPass datasets iters (perms 0) ∧
      (itersAfterPass datasets iters (perms 0)).getD i [] = rest) := by
  have hnd : (perms 0).Nodup := hperm.nodup_iff.mpr (List.nodup_range _)
  have hmem : ∀ i, i ∈ perms 0 ↔ i < datasets.length := by
    intro i
    rw [hperm.mem_iff, List.mem_range]
  have hplen : (perms 0).length = datasets.length := by
    simpa using hperm.length_eq
  have hdraw : ∀ i ∈ perms 0, taskDraw datasets iters i ≠ none :=
    fun i hi => taskDraw_isSome_of_lt datasets iters i ((hmem i).mp hi) hne
  have hpass := passDraw_spec datasets.length datasets (perms 0) iters [] hnd hdraw
    (by simp [hplen])
  have hcount : (batchesOfPass datasets iters (perms 0)).length = datasets.length := by
    have h := batchesOfPass_map_fst datasets iters (perms 0) hdraw
    calc (batchesOfPass datasets iters (perms 0)).length
        = ((batchesOfPass datasets iters (perms 0)).map Prod.fst).length :=
          (List.length_map _ _).symm
      _ = (perms 0).length := by rw [h]
      _ = datasets.length := hplen
  have hcollect : collectBatches 2 datasets.length datasets perms 0 iters [] =
      some (itersAfterPass datasets iters (perms 0),
            batchesOfPass datasets iters (perms 0)) := by
    rw [show collectBatches 2 datasets.length datasets perms 0 iters [] =
        if ([] : List (ℕ × B)).length < datasets.length then
          match passDraw datasets.length datasets (perms 0) iters [] with
          | none => none
          | some (iters2, batches2) =>
              collectBatches 1 datasets.length datasets perms 1 iters2 batches2
        else some (iters, []) from rfl]
    rw [if_pos (by simpa using hn), hpass]
    show collectBatches 1 datasets.length datasets perms 1
      (itersAfterPass datasets iters (perms 0))
      ([] ++ batchesOfPass datasets iters (perms 0)) = _
    rw [List.nil_append]
    rw [show ∀ (its : List (List B)) (bs : List (ℕ × B)),
        collectBatches 1 datasets.length datasets perms 1 its bs =
          if bs.length < datasets.length then
            match passDraw datasets.length datasets (perms 1) its bs with
            | none => none
            | some (iters2, batches2) =>
                collectBatches 0 datasets.length datasets perms 2 iters2 batches2
          else some (its, bs) from fun _ _ => rfl]
    rw [if_neg (by rw [hcount]; omega)]
  have htask : ∀ (i : ℕ) (b : B) (rest : List B), i < datasets.length →
      taskDraw datasets iters i = some (b, rest) →
      (i, b) ∈ batchesOfPass datasets iters (perms 0) ∧
      (itersAfterPass datasets iters (perms 0)).getD i [] = rest := by
    intro i b rest hi hd
    refine ⟨mem_batchesOfPass datasets iters (perms 0) i b rest
      ((hmem i).mpr hi) hd, ?_⟩
    have := foldl_set_getD
      (fun j => ((taskDraw datasets iters j).map Prod.snd).getD [])
      (perms 0) iters i hnd ((hmem i).mpr hi) (by omega)
    rw [itersAfterPass, this]
    show ((taskDraw datasets iters i).map Prod.snd).getD [] = rest
    rw [hd]
    rfl
  refine ⟨hcollect, batchesOfPass_map_fst datasets iters (perms 0) hdraw, ?_, ?_⟩
  · intro i b rest hi hit
    exact htask i b rest hi (by rw [taskDraw, hit]; simp [drawFromTask])
  · intro i b rest hi hit hds
    exact htask i b rest hi (by rw [taskDraw, hit, hds]; simp [drawFromTask])

/-- Witness for `c2_one_batch_per_task`: two tasks with datasets `[10, 11]`
and `[20]`, the first task's iterator holding `[11]` and the second's
exhausted, visited in the order `[1, 0]`: one batch per task — `11` from the
advancing first iterator, `20` from the restarted second one. -/
theorem c2_one_batch_per_task_witness :
    collectBatches 2 2 [[10, 11], [20]] (fun _ => [1, 0]) 0 [[11], []] [] =
      some (itersAfterPass [[10, 11], [20]] [[11], []] [1, 0],
            batchesOfPass [[10, 11], [20]] [[11], []] [1, 0]) ∧
    (batchesOfPass [[10, 11], [20]] [[11], []] [1, 0]).map Prod.fst = [1, 0] ∧
    ((0, 11) ∈ batchesOfPass [[10, 11], [20]] [[11], []] [1, 0] ∧
      (itersAfterPass [[10, 11], [20]] [[11], []] [1, 0]).getD 0 [] = []) ∧
    ((1, 20) ∈ batchesOfPass [[10, 11], [20]] [[11], []] [1, 0] ∧
      (itersAfterPass [[10, 11], [20]] [[11], []] [1, 0]).getD 1 [] = []) := by
  obtain ⟨h1, h2, h3, h4⟩ := c2_one_batch_per_task ℕ [[10, 11], [20]] [[11], []]
    (fun _ => [1, 0]) rfl (by decide) (by decide) (by decide)
  exact ⟨h1, h2, h3 0 11 [] (by decide) rfl, h4 1 20 [] (by decide) rfl rfl⟩

/-- C2 counterexample: with two tasks but `batch_size = 1`, the collection
loop draws a batch only from the first task in the random order — task `1`
contributes no batch in this step, contradicting "exactly one batch is drawn
from each task". -/
theorem c2_counterexample :
    collectBatches 2 1 [[0], [1]] (fun _ => [0, 1]) 0 [[0], [1]] [] =
      some ([[], [1]], [(0, 0)]) ∧
    ¬((1 : ℕ) ∈ [(0, 0)].map (Prod.fst (α := ℕ) (β := ℕ))) := by
  exact ⟨by decide, by decide⟩

end Toucan
